import Mathlib

/-!
Verification development for the `@setemiojo/utils` repository.

The repository ships only documentation for its runtime behaviour, so every
definition below is a shallow embedding reconstructed from the specification
and the usage documentation.  Asynchronous completion timing is made explicit:
a schedule (a list of natural numbers) chooses, at each step, which in-flight
item completes next, so quantifying over all schedules quantifies over all
completion orders.
-/

namespace UtilsSpec

/-- Modelled from the spec: execution state of the ConcurrencyLimitedMapper
(`p`) stage executor, which is missing from `src/` (only `docs/function.md`
describes it).  `next` is the next input index not yet dispatched, `inflight`
lists the indices whose asynchronous stage invocation has started but not yet
settled (in dispatch order), and `done` records settled invocations keyed by
original index, in completion order. -/
structure PState (α : Type) where
  next : Nat
  inflight : List Nat
  done : List (Nat × α)
  deriving DecidableEq

/-- Modelled from the spec: dispatching the next item starts its stage
invocation, moving index `next` into the in-flight set. -/
def dispatch {α : Type} (s : PState α) : PState α :=
  ⟨s.next + 1, s.inflight ++ [s.next], s.done⟩

/-- Modelled from the spec: one in-flight invocation settles.  The schedule
entry `k` selects which one (via rotation, so every in-flight item can be the
one that completes), and its result `f i` is recorded keyed by its original
index `i`. -/
def completeOne {α : Type} (f : Nat → α) (k : Nat) (s : PState α) : PState α :=
  match s.inflight.rotate k with
  | [] => s
  | i :: rest => ⟨s.next, rest, s.done ++ [(i, f i)]⟩

/-- Modelled from the spec: a single scheduler step.  Items are dispatched
eagerly up to the concurrency bound `c`; otherwise one in-flight invocation
(chosen by the schedule entry `k`) settles. -/
def step {α : Type} (c n : Nat) (f : Nat → α) (k : Nat) (s : PState α) : PState α :=
  if s.inflight.length < c ∧ s.next < n then dispatch s else completeOne f k s

/-- Run the machine, consuming one schedule entry per step. -/
def run {α : Type} (c n : Nat) (f : Nat → α) : List Nat → PState α → PState α
  | [], s => s
  | k :: ks, s => run c n f ks (step c n f k s)

/-- The initial state: nothing dispatched, nothing settled. -/
def pInit {α : Type} : PState α := ⟨0, [], []⟩

/-- The machine has finished: no in-flight work and every index dispatched. -/
def finished {α : Type} (n : Nat) (s : PState α) : Prop :=
  s.inflight = [] ∧ s.next = n

instance {α : Type} (n : Nat) (s : PState α) : Decidable (finished n s) := by
  unfold finished; infer_instance

/-- Remaining work measure: two units per undispatched item, one per in-flight
item.  Every step from an unfinished state decreases it. -/
def mu {α : Type} (n : Nat) (s : PState α) : Nat :=
  2 * (n - s.next) + s.inflight.length

/-- Run the machine on the given schedule, then keep completing (with default
choices) until done.  `2 * n` extra steps always suffice, so for a positive
concurrency bound this always reaches a finished state. -/
def runFull {α : Type} (c n : Nat) (f : Nat → α) (sched : List Nat) : PState α :=
  run c n f (sched ++ List.replicate (2 * n) 0) pInit

/-- The state invariant of the stage executor: dispatch never passes `n`,
in-flight and settled indices are exactly the dispatched ones, and every
settled record holds the item's own result. -/
def Inv {α : Type} (n : Nat) (f : Nat → α) (s : PState α) : Prop :=
  s.next ≤ n ∧
  (∀ i ∈ s.inflight, i < s.next) ∧
  (∀ i, i < s.next → i ∈ s.inflight ∨ ∃ a, (i, a) ∈ s.done) ∧
  (∀ p ∈ s.done, p.1 < s.next ∧ p.2 = f p.1)

theorem inv_init {α : Type} (n : Nat) (f : Nat → α) : Inv n f ((pInit : PState α)) := by
  refine ⟨Nat.zero_le n, ?_, ?_, ?_⟩ <;> simp [pInit]

theorem inv_dispatch {α : Type} {n : Nat} {f : Nat → α} {s : PState α}
    (h : Inv n f s) (hlt : s.next < n) : Inv n f (dispatch s) := by
  obtain ⟨h1, h2, h3, h4⟩ := h
  refine ⟨hlt, ?_, ?_, ?_⟩
  · intro i hi
    simp only [dispatch, List.mem_append, List.mem_singleton] at hi
    rcases hi with hi | hi
    · exact Nat.lt_succ_of_lt (h2 i hi)
    · simp [dispatch, hi]
  · intro i hi
    simp only [dispatch]
    rcases Nat.lt_succ_iff_lt_or_eq.mp hi with hi' | hi'
    · rcases h3 i hi' with hmem | hmem
      · exact Or.inl (List.mem_append_left _ hmem)
      · exact Or.inr hmem
    · exact Or.inl (List.mem_append_right _ (by simp [hi']))
  · intro p hp
    simp only [dispatch] at hp
    exact ⟨Nat.lt_succ_of_lt (h4 p hp).1, (h4 p hp).2⟩

theorem inv_completeOne {α : Type} {n : Nat} {f : Nat → α} {s : PState α}
    (h : Inv n f s) (k : Nat) : Inv n f (completeOne f k s) := by
  obtain ⟨h1, h2, h3, h4⟩ := h
  unfold completeOne
  cases hrot : s.inflight.rotate k with
  | nil => exact ⟨h1, h2, h3, h4⟩
  | cons i rest =>
    have hmem_rot : ∀ x, x ∈ i :: rest ↔ x ∈ s.inflight := by
      intro x; rw [← hrot]; exact List.mem_rotate
    have hi_mem : i ∈ s.inflight := (hmem_rot i).mp (List.mem_cons_self i rest)
    refine ⟨h1, ?_, ?_, ?_⟩
    · intro x hx
      exact h2 x ((hmem_rot x).mp (List.mem_cons_of_mem i hx))
    · intro j hj
      rcases h3 j hj with hmem | hmem
      · rcases List.mem_cons.mp ((hmem_rot j).mpr hmem) with hj' | hj'
        · exact Or.inr ⟨f i, by simp [hj']⟩
        · exact Or.inl hj'
      · obtain ⟨a, ha⟩ := hmem
        exact Or.inr ⟨a, List.mem_append_left _ ha⟩
    · intro p hp
      rcases List.mem_append.mp hp with hp' | hp'
      · exact h4 p hp'
      · simp only [List.mem_singleton] at hp'
        subst hp'
        exact ⟨h2 i hi_mem, rfl⟩

theorem inv_step {α : Type} {n : Nat} {f : Nat → α} {s : PState α}
    (h : Inv n f s) (c k : Nat) : Inv n f (step c n f k s) := by
  unfold step
  by_cases hcond : s.inflight.length < c ∧ s.next < n
  · rw [if_pos hcond]; exact inv_dispatch h hcond.2
  · rw [if_neg hcond]; exact inv_completeOne h k

theorem inv_run {α : Type} {n : Nat} {f : Nat → α} (c : Nat) :
    ∀ (ks : List Nat) (s : PState α), Inv n f s → Inv n f (run c n f ks s)
  | [], _, h => h
  | k :: ks, s, h => inv_run c ks (step c n f k s) (inv_step h c k)

theorem inv_runFull {α : Type} (c n : Nat) (f : Nat → α) (sched : List Nat) :
    Inv n f (runFull c n f sched) :=
  inv_run c _ _ (inv_init n f)

theorem step_of_finished {α : Type} {n : Nat} {s : PState α} (h : finished n s)
    (c k : Nat) (f : Nat → α) : step c n f k s = s := by
  obtain ⟨h1, h2⟩ := h
  unfold step
  rw [if_neg (by simp [h1, h2])]
  unfold completeOne
  simp [h1, List.rotate_nil]

theorem run_of_finished {α : Type} {n : Nat} {f : Nat → α} (c : Nat) :
    ∀ (ks : List Nat) (s : PState α), finished n s → run c n f ks s = s
  | [], _, _ => rfl
  | k :: ks, s, h => by
    show run c n f ks (step c n f k s) = s
    rw [step_of_finished h c k f]
    exact run_of_finished c ks s h

theorem mu_step_lt {α : Type} {c n : Nat} {f : Nat → α} {s : PState α}
    (hc : 1 ≤ c) (hn : s.next ≤ n) (hnf : ¬ finished n s) (k : Nat) :
    mu n (step c n f k s) < mu n s := by
  unfold step
  by_cases hcond : s.inflight.length < c ∧ s.next < n
  · rw [if_pos hcond]
    unfold mu dispatch
    simp only [List.length_append, List.length_singleton]
    omega
  · rw [if_neg hcond]
    unfold completeOne
    cases hrot : s.inflight.rotate k with
    | nil =>
      exfalso
      have hempty : s.inflight = [] := by
        have := congrArg List.length hrot
        simpa [List.length_rotate] using this
      have hn' : ¬ s.next < n := by
        intro hlt
        exact hcond ⟨by simp [hempty, hc]; omega, hlt⟩
      exact hnf ⟨hempty, by omega⟩
    | cons i rest =>
      have hlen := congrArg List.length hrot
      simp only [List.length_rotate, List.length_cons] at hlen
      unfold mu
      simp only
      omega

theorem step_next_le {α : Type} {c n : Nat} {f : Nat → α} {s : PState α}
    (hn : s.next ≤ n) (k : Nat) : (step c n f k s).next ≤ n := by
  unfold step
  by_cases hcond : s.inflight.length < c ∧ s.next < n
  · rw [if_pos hcond]; exact hcond.2
  · rw [if_neg hcond]
    unfold completeOne
    cases s.inflight.rotate k with
    | nil => exact hn
    | cons i rest => exact hn

theorem mu_step_le {α : Type} {c n : Nat} {f : Nat → α} {s : PState α}
    (hc : 1 ≤ c) (hn : s.next ≤ n) (k : Nat) :
    mu n (step c n f k s) ≤ mu n s := by
  by_cases hfin : finished n s
  · rw [step_of_finished hfin]
  · exact Nat.le_of_lt (mu_step_lt hc hn hfin k)

theorem run_finishes {α : Type} {c n : Nat} {f : Nat → α} (hc : 1 ≤ c) :
    ∀ (ks : List Nat) (s : PState α), s.next ≤ n → mu n s ≤ ks.length →
      finished n (run c n f ks s)
  | [], s, hn, hmu => by
    simp only [List.length_nil, Nat.le_zero] at hmu
    unfold mu at hmu
    have h1 : s.inflight = [] := by
      have := Nat.eq_zero_of_add_eq_zero_left hmu
      exact List.length_eq_zero.mp this
    have h2 : s.next = n := by omega
    exact ⟨h1, h2⟩
  | k :: ks, s, hn, hmu => by
    show finished n (run c n f ks (step c n f k s))
    by_cases hfin : finished n s
    · rw [step_of_finished hfin]
      exact run_finishes hc ks s hn (by
        have : mu n s = 0 := by
          obtain ⟨h1, h2⟩ := hfin
          unfold mu; simp [h1, h2]
        omega)
    · exact run_finishes hc ks (step c n f k s) (step_next_le hn k)
        (by have := @mu_step_lt α c n f s hc hn hfin k
            simp only [List.length_cons] at hmu
            omega)

theorem run_append {α : Type} (c n : Nat) (f : Nat → α) :
    ∀ (xs ys : List Nat) (s : PState α),
      run c n f (xs ++ ys) s = run c n f ys (run c n f xs s)
  | [], _, _ => rfl
  | x :: xs, ys, s => run_append c n f xs ys (step c n f x s)

theorem run_next_le {α : Type} {c n : Nat} {f : Nat → α} :
    ∀ (ks : List Nat) (s : PState α), s.next ≤ n → (run c n f ks s).next ≤ n
  | [], _, hn => hn
  | k :: ks, s, hn => run_next_le ks (step c n f k s) (step_next_le hn k)

theorem mu_run_le {α : Type} {c n : Nat} {f : Nat → α} (hc : 1 ≤ c) :
    ∀ (ks : List Nat) (s : PState α), s.next ≤ n →
      mu n (run c n f ks s) ≤ mu n s
  | [], _, _ => Nat.le_refl _
  | k :: ks, s, hn =>
    Nat.le_trans (mu_run_le hc ks (step c n f k s) (step_next_le hn k))
      (mu_step_le hc hn k)

/-- With a positive concurrency bound the executor always reaches a finished
state: every index is dispatched and every invocation settles. -/
theorem runFull_finished {α : Type} {c : Nat} (hc : 1 ≤ c) (n : Nat)
    (f : Nat → α) (sched : List Nat) : finished n (runFull c n f sched) := by
  unfold runFull
  rw [run_append]
  have hnext : (run c n f sched ((pInit : PState α))).next ≤ n :=
    run_next_le sched pInit (by simp [pInit])
  have hmu : mu n (run c n f sched ((pInit : PState α))) ≤ 2 * n := by
    have hle : mu n (run c n f sched ((pInit : PState α))) ≤ mu n ((pInit : PState α)) :=
      @mu_run_le α c n f hc sched pInit (by simp [pInit])
    have hinit : mu n ((pInit : PState α)) = 2 * n := by unfold mu pInit; simp
    omega
  exact run_finishes hc _ _ hnext (by simp [List.length_replicate]; omega)

/-- Modelled from the spec: the final ordered sequence is assembled by original
input index, looking each index's settled result up in the completion record. -/
def assemble {α : Type} (n : Nat) (done : List (Nat × α)) : List α :=
  (List.range n).filterMap fun i => (done.find? fun p => p.1 == i).map Prod.snd

theorem filterMap_eq_map_of {β γ : Type} (l : List β) (g : β → Option γ)
    (h : β → γ) (hg : ∀ x ∈ l, g x = some (h x)) : l.filterMap g = l.map h := by
  induction l with
  | nil => rfl
  | cons x xs ih =>
    rw [List.filterMap_cons, hg x (List.mem_cons_self x xs), List.map_cons,
      ih (fun y hy => hg y (List.mem_cons_of_mem x hy))]

theorem find_of_exists {β : Type} (p : β → Bool) (l : List β)
    (h : ∃ x ∈ l, p x = true) : ∃ q, l.find? p = some q ∧ p q = true ∧ q ∈ l := by
  induction l with
  | nil => simp at h
  | cons x xs ih =>
    by_cases hx : p x = true
    · exact ⟨x, by rw [List.find?_cons_of_pos _ hx], hx, List.mem_cons_self x xs⟩
    · obtain ⟨y, hy, hpy⟩ := h
      rcases List.mem_cons.mp hy with rfl | hy'
      · exact absurd hpy hx
      · obtain ⟨q, hq1, hq2, hq3⟩ := ih ⟨y, hy', hpy⟩
        exact ⟨q, by rw [List.find?_cons_of_neg _ (by simp [hx]), hq1], hq2,
          List.mem_cons_of_mem x hq3⟩

theorem assemble_eq_map {α : Type} {n : Nat} {f : Nat → α} {done : List (Nat × α)}
    (hform : ∀ p ∈ done, p.2 = f p.1)
    (hcov : ∀ i, i < n → ∃ a, (i, a) ∈ done) :
    assemble n done = (List.range n).map f := by
  unfold assemble
  apply filterMap_eq_map_of
  intro i hi
  have hi' : i < n := List.mem_range.mp hi
  obtain ⟨a, ha⟩ := hcov i hi'
  obtain ⟨q, hq1, hq2, hq3⟩ := find_of_exists (fun p => p.1 == i) done
    ⟨(i, a), ha, by simp⟩
  have hqi : q.1 = i := by simpa using hq2
  rw [hq1]
  simp [hform q hq3, hqi]

/-- Whenever the executor finishes, the assembled output is the input-index
ordered sequence of per-item results, independent of the completion schedule. -/
theorem assemble_runFull {α : Type} {c : Nat} (hc : 1 ≤ c) (n : Nat)
    (f : Nat → α) (sched : List Nat) :
    assemble n (runFull c n f sched).done = (List.range n).map f := by
  obtain ⟨hfin1, hfin2⟩ := runFull_finished hc n f sched
  obtain ⟨h1, h2, h3, h4⟩ := inv_runFull c n f sched
  apply assemble_eq_map
  · exact fun p hp => (h4 p hp).2
  · intro i hi
    rcases h3 i (by omega) with hmem | hmem
    · rw [hfin1] at hmem; simp at hmem
    · exact hmem

/-- Modelled from the spec: a pipeline stage, a tagged variant of `map` and
`filter`.  The per-item asynchronous function is embedded as its settled
outcome: `Except e v` abstracts a future that rejects with `e` or fulfils with
`v`.  Both receive the item and its index. -/
inductive Stage (E V : Type) where
  | map : (V → Nat → Except E V) → Stage E V
  | filter : (V → Nat → Except E Bool) → Stage E V

/-- Modelled from the spec: the settled outcome of one item's invocation in a
stage: rejection carries the stage function's error, fulfilment carries
`some v` for a surviving (possibly transformed) item and `none` for an item a
filter excluded. -/
def applyStage {E V : Type} (st : Stage E V) (items : List V) (i : Nat) :
    Except E (Option V) :=
  match items[i]? with
  | none => Except.ok none
  | some v =>
    match st with
    | Stage.map g => (g v i).map some
    | Stage.filter pred => (pred v i).map (fun b => if b then some v else none)

/-- The first rejection in completion order, if any. -/
def firstError {E β : Type} : List (Nat × Except E β) → Option E
  | [] => none
  | (_, Except.error e) :: _ => some e
  | (_, Except.ok _) :: rest => firstError rest

/-- Keep the fulfilled, surviving values, in the given order. -/
def collectOk {E V : Type} : List (Except E (Option V)) → List V
  | [] => []
  | Except.ok (some v) :: rest => v :: collectOk rest
  | Except.ok none :: rest => collectOk rest
  | Except.error _ :: rest => collectOk rest

/-- The completion-ordered settled record of one stage's execution. -/
def machineDone {E V : Type} (c : Nat) (sched : List Nat) (st : Stage E V)
    (items : List V) : List (Nat × Except E (Option V)) :=
  (runFull c items.length (applyStage st items) sched).done

/-- Modelled from the spec: executing one stage over a collection with
concurrency bound `c` under completion schedule `sched`.  If any invocation
rejected, the stage rejects with the first rejection observed in completion
order; otherwise the surviving results are assembled by original input index. -/
def runStage {E V : Type} (c : Nat) (sched : List Nat) (st : Stage E V)
    (items : List V) : Except E (List V) :=
  match firstError (machineDone c sched st items) with
  | some e => Except.error e
  | none => Except.ok (collectOk (assemble items.length (machineDone c sched st items)))

/-- Modelled from the spec: the whole pipeline, one stage after another, each
stage drawing its completion schedule from `scheds`. -/
def runPipeline {E V : Type} (c : Nat) :
    List (Stage E V) → List (List Nat) → List V → Except E (List V)
  | [], _, items => Except.ok items
  | st :: sts, scheds, items =>
    match runStage c (scheds.headD []) st items with
    | Except.error e => Except.error e
    | Except.ok out => runPipeline c sts scheds.tail out

/-- The sequential reference semantics of a stage: items evaluated one by one
in input-index order, first rejection propagated. -/
def refGo {E V : Type} (st : Stage E V) (items : List V) :
    List Nat → Except E (List V)
  | [] => Except.ok []
  | i :: is =>
    match applyStage st items i with
    | Except.error e => Except.error e
    | Except.ok none => refGo st items is
    | Except.ok (some v) => (refGo st items is).map (fun l => v :: l)

/-- The sequential reference semantics of a stage over all indices. -/
def refStage {E V : Type} (st : Stage E V) (items : List V) : Except E (List V) :=
  refGo st items (List.range items.length)

/-- The sequential reference semantics of the whole pipeline. -/
def refPipeline {E V : Type} : List (Stage E V) → List V → Except E (List V)
  | [], items => Except.ok items
  | st :: sts, items =>
    match refStage st items with
    | Except.error e => Except.error e
    | Except.ok out => refPipeline sts out

theorem refGo_ok {E V : Type} (st : Stage E V) (items : List V) :
    ∀ (l : List Nat) (out : List V), refGo st items l = Except.ok out →
      (∀ i ∈ l, ∃ r, applyStage st items i = Except.ok r) ∧
      out = collectOk (l.map (applyStage st items))
  | [], out, h => by
    refine ⟨by simp, ?_⟩
    simp only [refGo] at h
    cases h
    rfl
  | i :: is, out, h => by
    simp only [refGo] at h
    cases happ : applyStage st items i with
    | error e => rw [happ] at h; cases h
    | ok o =>
      cases o with
      | none =>
        rw [happ] at h
        obtain ⟨hall, hout⟩ := refGo_ok st items is out h
        refine ⟨?_, ?_⟩
        · intro j hj
          rcases List.mem_cons.mp hj with rfl | hj'
          · exact ⟨none, happ⟩
          · exact hall j hj'
        · rw [List.map_cons, happ]
          simpa [collectOk] using hout
      | some v =>
        rw [happ] at h
        cases hrec : refGo st items is with
        | error e => rw [hrec] at h; cases h
        | ok out2 =>
          rw [hrec] at h
          simp only [Except.map] at h
          cases h
          obtain ⟨hall, hout⟩ := refGo_ok st items is out2 hrec
          refine ⟨?_, ?_⟩
          · intro j hj
            rcases List.mem_cons.mp hj with rfl | hj'
            · exact ⟨some v, happ⟩
            · exact hall j hj'
          · rw [List.map_cons, happ]
            simpa [collectOk] using hout

theorem firstError_none_of_ok {E β : Type} :
    ∀ (l : List (Nat × Except E β)), (∀ p ∈ l, ∃ r, p.2 = Except.ok r) →
      firstError l = none
  | [], _ => rfl
  | (i, x) :: rest, h => by
    obtain ⟨r, hr⟩ := h (i, x) (List.mem_cons_self _ _)
    simp only at hr
    subst hr
    simpa [firstError] using
      firstError_none_of_ok rest (fun p hp => h p (List.mem_cons_of_mem _ hp))

theorem firstError_some_of_mem {E β : Type} :
    ∀ (l : List (Nat × Except E β)), (∃ p ∈ l, ∃ e, p.2 = Except.error e) →
      ∃ e', firstError l = some e'
  | [], h => by simp at h
  | (i, x) :: rest, h => by
    cases x with
    | error e => exact ⟨e, rfl⟩
    | ok r =>
      obtain ⟨p, hp, e, he⟩ := h
      rcases List.mem_cons.mp hp with rfl | hp'
      · simp at he
      · simpa [firstError] using
          firstError_some_of_mem rest ⟨p, hp', e, he⟩

theorem firstError_mem {E β : Type} :
    ∀ (l : List (Nat × Except E β)) (e : E), firstError l = some e →
      ∃ p ∈ l, p.2 = Except.error e
  | [], e, h => by simp [firstError] at h
  | (i, x) :: rest, e, h => by
    cases x with
    | error e0 =>
      simp only [firstError, Option.some.injEq] at h
      exact ⟨(i, Except.error e0), List.mem_cons_self _ _, by simp [h]⟩
    | ok r =>
      obtain ⟨p, hp, hpe⟩ := firstError_mem rest e (by simpa [firstError] using h)
      exact ⟨p, List.mem_cons_of_mem _ hp, hpe⟩

theorem firstError_split {E β : Type} :
    ∀ (l : List (Nat × Except E β)) (e : E), firstError l = some e →
      ∃ l1 p l2, l = l1 ++ p :: l2 ∧ p.2 = Except.error e ∧
        ∀ q ∈ l1, ∀ e2, q.2 ≠ Except.error e2
  | [], e, h => by simp [firstError] at h
  | (i, x) :: rest, e, h => by
    cases x with
    | error e0 =>
      simp only [firstError, Option.some.injEq] at h
      exact ⟨[], (i, Except.error e0), rest, by simp, by simp [h], by simp⟩
    | ok r =>
      obtain ⟨l1, p, l2, h1, h2, h3⟩ :=
        firstError_split rest e (by simpa [firstError] using h)
      refine ⟨(i, Except.ok r) :: l1, p, l2, by simp [h1], h2, ?_⟩
      intro q hq e2
      rcases List.mem_cons.mp hq with rfl | hq'
      · simp
      · exact h3 q hq' e2

theorem machineDone_form {E V : Type} {c : Nat} (sched : List Nat)
    (st : Stage E V) (items : List V) :
    ∀ p ∈ machineDone c sched st items,
      p.1 < items.length ∧ p.2 = applyStage st items p.1 := by
  intro p hp
  obtain ⟨h1, h2, h3, h4⟩ := inv_runFull c items.length (applyStage st items) sched
  have := h4 p hp
  exact ⟨Nat.lt_of_lt_of_le this.1 h1, this.2⟩

theorem machineDone_cover {E V : Type} {c : Nat} (hc : 1 ≤ c) (sched : List Nat)
    (st : Stage E V) (items : List V) :
    ∀ i, i < items.length → ∃ a, (i, a) ∈ machineDone c sched st items := by
  intro i hi
  obtain ⟨hfin1, hfin2⟩ := runFull_finished hc items.length (applyStage st items) sched
  obtain ⟨h1, h2, h3, h4⟩ := inv_runFull c items.length (applyStage st items) sched
  rcases h3 i (by omega) with hmem | hmem
  · rw [hfin1] at hmem; simp at hmem
  · exact hmem

/-- Whenever the sequential reference succeeds, every schedule's bounded
execution fulfils with the same, input-index ordered output. -/
theorem runStage_of_refStage {E V : Type} {c : Nat} (hc : 1 ≤ c)
    (sched : List Nat) (st : Stage E V) (items : List V) (out : List V)
    (href : refStage st items = Except.ok out) :
    runStage c sched st items = Except.ok out := by
  obtain ⟨hall, hout⟩ := refGo_ok st items (List.range items.length) out href
  have hform := machineDone_form (c := c) sched st items
  have hcov := machineDone_cover hc sched st items
  have hnoerr : firstError (machineDone c sched st items) = none := by
    apply firstError_none_of_ok
    intro p hp
    obtain ⟨hp1, hp2⟩ := hform p hp
    obtain ⟨r, hr⟩ := hall p.1 (List.mem_range.mpr hp1)
    exact ⟨r, by rw [hp2, hr]⟩
  have hassemble : assemble items.length (machineDone c sched st items) =
      (List.range items.length).map (applyStage st items) :=
    assemble_runFull hc items.length (applyStage st items) sched
  unfold runStage
  rw [hnoerr, hassemble, ← hout]

theorem runPipeline_of_refPipeline {E V : Type} {c : Nat} (hc : 1 ≤ c) :
    ∀ (stages : List (Stage E V)) (scheds : List (List Nat)) (items out : List V),
      refPipeline stages items = Except.ok out →
      runPipeline c stages scheds items = Except.ok out
  | [], scheds, items, out, h => by
    simp only [refPipeline] at h
    simpa [runPipeline] using h
  | st :: sts, scheds, items, out, h => by
    simp only [refPipeline] at h
    cases hst : refStage st items with
    | error e => rw [hst] at h; cases h
    | ok mid =>
      rw [hst] at h
      simp only [runPipeline]
      rw [runStage_of_refStage hc (scheds.headD []) st items mid hst]
      exact runPipeline_of_refPipeline hc sts scheds.tail mid out h

/-- The stage's own asynchronous function, invoked at value `v` and index `i`,
rejects with exactly the error `e`. -/
def stageRejectsWith {E V : Type} (st : Stage E V) (v : V) (i : Nat) (e : E) : Prop :=
  match st with
  | Stage.map g => g v i = Except.error e
  | Stage.filter pred => pred v i = Except.error e

theorem applyStage_error {E V : Type} {st : Stage E V} {items : List V}
    {i : Nat} {e : E} (h : applyStage st items i = Except.error e) :
    ∃ v, items[i]? = some v ∧ stageRejectsWith st v i e := by
  unfold applyStage at h
  cases hget : items[i]? with
  | none => rw [hget] at h; cases h
  | some v =>
    rw [hget] at h
    refine ⟨v, rfl, ?_⟩
    cases st with
    | map g =>
      simp only at h
      cases hg : g v i with
      | error e0 =>
        rw [hg] at h
        simp only [Except.map] at h
        cases h
        exact hg
      | ok w => rw [hg] at h; simp [Except.map] at h
    | filter pred =>
      simp only at h
      cases hg : pred v i with
      | error e0 =>
        rw [hg] at h
        simp only [Except.map] at h
        cases h
        exact hg
      | ok b => rw [hg] at h; simp [Except.map] at h

theorem runStage_error_cause {E V : Type} {c : Nat} {sched : List Nat}
    {st : Stage E V} {items : List V} {e : E}
    (h : runStage c sched st items = Except.error e) :
    ∃ v i, stageRejectsWith st v i e := by
  unfold runStage at h
  cases hfe : firstError (machineDone c sched st items) with
  | none => rw [hfe] at h; cases h
  | some e0 =>
    rw [hfe] at h
    cases h
    obtain ⟨p, hp, hpe⟩ := firstError_mem _ _ hfe
    obtain ⟨hp1, hp2⟩ := machineDone_form sched st items p hp
    obtain ⟨v, hv1, hv2⟩ := applyStage_error (hp2 ▸ hpe)
    exact ⟨v, p.1, hv2⟩

theorem runPipeline_error_cause {E V : Type} {c : Nat} :
    ∀ (stages : List (Stage E V)) (scheds : List (List Nat)) (items : List V)
      (e : E), runPipeline c stages scheds items = Except.error e →
      ∃ st ∈ stages, ∃ v i, stageRejectsWith st v i e
  | [], _, _, _, h => by simp [runPipeline] at h
  | st :: sts, scheds, items, e, h => by
    simp only [runPipeline] at h
    cases hst : runStage c (scheds.headD []) st items with
    | error e0 =>
      rw [hst] at h
      cases h
      obtain ⟨v, i, hvi⟩ := runStage_error_cause hst
      exact ⟨st, List.mem_cons_self _ _, v, i, hvi⟩
    | ok mid =>
      rw [hst] at h
      obtain ⟨st2, hst2, v, i, hvi⟩ :=
        runPipeline_error_cause sts scheds.tail mid e h
      exact ⟨st2, List.mem_cons_of_mem _ hst2, v, i, hvi⟩

theorem runStage_rejects {E V : Type} {c : Nat} (hc : 1 ≤ c)
    (sched : List Nat) (st : Stage E V) (items : List V)
    (h : ∃ i, i < items.length ∧ ∃ e, applyStage st items i = Except.error e) :
    ∃ e', runStage c sched st items = Except.error e' ∧
      ∃ i, i < items.length ∧ applyStage st items i = Except.error e' := by
  obtain ⟨i, hi, e, he⟩ := h
  obtain ⟨a, ha⟩ := machineDone_cover hc sched st items i hi
  have hform := machineDone_form (c := c) sched st items (i, a) ha
  obtain ⟨e', hfe⟩ := firstError_some_of_mem (machineDone c sched st items)
    ⟨(i, a), ha, e, by rw [hform.2]; exact he⟩
  obtain ⟨p, hp, hpe⟩ := firstError_mem _ e' hfe
  obtain ⟨hp1, hp2⟩ := machineDone_form sched st items p hp
  refine ⟨e', ?_, p.1, hp1, hp2 ▸ hpe⟩
  unfold runStage
  rw [hfe]

/-- Single-step trace of the stage executor: the list of all machine states
reached while running a schedule, i.e. every instant of the execution. -/
def runTrace {α : Type} (c n : Nat) (f : Nat → α) : List Nat → PState α → List (PState α)
  | [], s => [s]
  | k :: ks, s => s :: runTrace c n f ks (step c n f k s)

theorem step_inflight_le {α : Type} {c n : Nat} {f : Nat → α} {s : PState α}
    (h : s.inflight.length ≤ c) (k : Nat) :
    (step c n f k s).inflight.length ≤ c := by
  unfold step
  by_cases hcond : s.inflight.length < c ∧ s.next < n
  · rw [if_pos hcond]
    simpa [dispatch] using hcond.1
  · rw [if_neg hcond]
    unfold completeOne
    cases hrot : s.inflight.rotate k with
    | nil => exact h
    | cons i rest =>
      have hlen := congrArg List.length hrot
      simp only [List.length_rotate, List.length_cons] at hlen
      simp only
      omega

theorem runTrace_inflight_le {α : Type} {c n : Nat} {f : Nat → α} :
    ∀ (ks : List Nat) (s : PState α), s.inflight.length ≤ c →
      ∀ t ∈ runTrace c n f ks s, t.inflight.length ≤ c
  | [], s, h, t, ht => by
    simp only [runTrace, List.mem_singleton] at ht
    exact ht ▸ h
  | k :: ks, s, h, t, ht => by
    simp only [runTrace, List.mem_cons] at ht
    rcases ht with rfl | ht'
    · exact h
    · exact runTrace_inflight_le ks (step c n f k s) (step_inflight_le h k) t ht'

/-- The in-flight count at every instant of one stage's execution. -/
def stageInflights {E V : Type} (c : Nat) (sched : List Nat) (st : Stage E V)
    (items : List V) : List Nat :=
  (runTrace c items.length (applyStage st items)
    (sched ++ List.replicate (2 * items.length) 0) pInit).map
    (fun t => t.inflight.length)

/-- The in-flight count at every instant of the whole pipeline's execution:
stages execute one after the other, and a rejected stage settles the pipeline,
discarding the rest. -/
def pipelineInflights {E V : Type} (c : Nat) :
    List (Stage E V) → List (List Nat) → List V → List Nat
  | [], _, _ => []
  | st :: sts, scheds, items =>
    stageInflights c (scheds.headD []) st items ++
    (match runStage c (scheds.headD []) st items with
     | Except.error _ => []
     | Except.ok out => pipelineInflights c sts scheds.tail out)

theorem stageInflights_le {E V : Type} (c : Nat) (sched : List Nat)
    (st : Stage E V) (items : List V) :
    ∀ m ∈ stageInflights c sched st items, m ≤ c := by
  intro m hm
  unfold stageInflights at hm
  obtain ⟨t, ht, rfl⟩ := List.mem_map.mp hm
  exact runTrace_inflight_le _ pInit (by simp [pInit]) t ht

theorem pipelineInflights_le {E V : Type} (c : Nat) :
    ∀ (stages : List (Stage E V)) (scheds : List (List Nat)) (items : List V),
      ∀ m ∈ pipelineInflights c stages scheds items, m ≤ c
  | [], _, _, m, hm => by simp [pipelineInflights] at hm
  | st :: sts, scheds, items, m, hm => by
    simp only [pipelineInflights] at hm
    rcases List.mem_append.mp hm with hm' | hm'
    · exact stageInflights_le c (scheds.headD []) st items m hm'
    · cases hst : runStage c (scheds.headD []) st items with
      | error e => rw [hst] at hm'; simp at hm'
      | ok out =>
        rw [hst] at hm'
        exact pipelineInflights_le c sts scheds.tail out m hm'

/-- The documented example's first stage: `map(async i => i * 3)`. -/
def mulThreeStage : Stage Unit Int := Stage.map (fun v _ => Except.ok (v * 3))

/-- The documented example's second stage: `filter(async i => i % 2 === 0)`. -/
def evenStage : Stage Unit Int := Stage.filter (fun v _ => Except.ok (v % 2 == 0))

/-- C1: for every input sequence, every chain of map/filter stages, every
positive concurrency bound and every completion schedule (i.e. regardless of
the order in which per-item asynchronous invocations complete), the pipeline
fulfils with exactly the sequence the sequential, input-index ordered
reference semantics produces: the surviving, transformed items listed in
original input order. -/
theorem c1_output_order {E V : Type} (c : Nat) (hc : 1 ≤ c)
    (stages : List (Stage E V)) (scheds : List (List Nat)) (items out : List V)
    (href : refPipeline stages items = Except.ok out) :
    runPipeline c stages scheds items = Except.ok out :=
  runPipeline_of_refPipeline hc stages scheds items out href

/-- C1 witness: `p([1,2,3,4,5]).map(async i => i*3).filter(async i => i%2===0)`
resolves to `[6, 12]`, here with concurrency 2 and a completion schedule that
finishes later-indexed items first. -/
theorem c1_output_order_witness :
    1 ≤ 2 ∧ runPipeline 2 [mulThreeStage, evenStage] [[3, 1, 0, 2], [1, 0]]
      [1, 2, 3, 4, 5] = Except.ok [6, 12] :=
  ⟨by decide,
    c1_output_order 2 (by decide) [mulThreeStage, evenStage] [[3, 1, 0, 2], [1, 0]]
      [1, 2, 3, 4, 5] [6, 12] (by rfl)⟩

/-- C2: for every positive concurrency bound `c`, at no instant during the
pipeline's execution does the number of simultaneously in-flight per-item
stage invocations exceed `c`, for any stages, schedules and input. -/
theorem c2_concurrency_bound {E V : Type} (c : Nat) (hc : 0 < c)
    (stages : List (Stage E V)) (scheds : List (List Nat)) (items : List V) :
    ∀ m ∈ pipelineInflights c stages scheds items, m ≤ c :=
  pipelineInflights_le c stages scheds items

/-- C2 witness: with concurrency 2 over 5 items, the in-flight count never
exceeds 2 at any instant of the two-stage pipeline. -/
theorem c2_concurrency_bound_witness :
    0 < 2 ∧ ∀ m ∈ pipelineInflights 2 [mulThreeStage, evenStage] [[0], [0]]
      ([1, 2, 3, 4, 5] : List Int), m ≤ 2 :=
  ⟨by decide,
    c2_concurrency_bound 2 (by decide) [mulThreeStage, evenStage] [[0], [0]]
      [1, 2, 3, 4, 5]⟩

/-- C7: error semantics of the pipeline.  (1) If the pipeline rejects, the
rejection reason delivered to the caller is exactly the unmodified error some
stage function produced (no wrapping), and the overall result carries nothing
else — the other items' results are discarded.  (2) If any item's stage
invocation rejects, the stage's (hence the pipeline's) future rejects, again
with an actual invocation's error.  (3) The reason is the first rejection in
completion order: in the settled record, every invocation completed before it
had fulfilled. -/
theorem c7_error_semantics {E V : Type} (c : Nat) (hc : 1 ≤ c) :
    (∀ (stages : List (Stage E V)) (scheds : List (List Nat)) (items : List V)
        (e : E), runPipeline c stages scheds items = Except.error e →
        ∃ st ∈ stages, ∃ v i, stageRejectsWith st v i e) ∧
    (∀ (sched : List Nat) (st : Stage E V) (items : List V),
        (∃ i, i < items.length ∧ ∃ e, applyStage st items i = Except.error e) →
        ∃ e', runStage c sched st items = Except.error e' ∧
          ∃ i, i < items.length ∧ applyStage st items i = Except.error e') ∧
    (∀ (sched : List Nat) (st : Stage E V) (items : List V) (e : E),
        runStage c sched st items = Except.error e →
        ∃ l1 p l2, machineDone c sched st items = l1 ++ p :: l2 ∧
          p.2 = Except.error e ∧ ∀ q ∈ l1, ∀ e2, q.2 ≠ Except.error e2) := by
  refine ⟨?_, ?_, ?_⟩
  · exact fun stages scheds items e h => runPipeline_error_cause stages scheds items e h
  · exact fun sched st items h => runStage_rejects hc sched st items h
  · intro sched st items e h
    unfold runStage at h
    cases hfe : firstError (machineDone c sched st items) with
    | none => rw [hfe] at h; cases h
    | some e0 =>
      rw [hfe] at h
      cases h
      exact firstError_split _ _ hfe

/-- A stage whose asynchronous function rejects on the item `3`. -/
def failOnThreeStage : Stage Unit Int :=
  Stage.map (fun v _ => if v = 3 then Except.error () else Except.ok v)

/-- C7 witness: a pipeline containing a rejecting invocation rejects, and the
delivered reason is an actual stage invocation's unmodified error. -/
theorem c7_error_semantics_witness :
    1 ≤ 2 ∧ ∃ st ∈ [failOnThreeStage], ∃ v i, stageRejectsWith st v i () :=
  ⟨by decide,
    (c7_error_semantics 2 (by decide)).1 [failOnThreeStage] [[0]]
      [1, 2, 3] () (by rfl)⟩

/-! ### SingletonTask (`createSingletonPromise`) -/

/-- The settled outcome of a future, success or failure; `singSettle` below
ignores it, which is exactly the "outcome swallowed" part of `reset`. -/
inductive Outcome (ε : Type) where
  | ok : Outcome ε
  | err : ε → Outcome ε
  deriving DecidableEq

/-- Modelled from the spec: state of `createSingletonPromise`, which is missing
from `src/` (only `docs/promise.md` describes it).  `current` stores the
identity of the stored future (`none` when empty), `pending` whether it is
still unsettled, `calls` counts factory invocations, `nextId` generates fresh
future identities, `resetWaiting` records a `reset()` awaiting the in-flight
invocation's settlement, and `resetsDone` counts resolved `reset()` calls. -/
structure SingState where
  current : Option Nat
  pending : Bool
  calls : Nat
  nextId : Nat
  resetWaiting : Bool
  resetsDone : Nat
  deriving DecidableEq

/-- The freshly created singleton: no stored invocation. -/
def singInit : SingState := ⟨none, false, 0, 0, false, 0⟩

/-- Modelled from the spec: calling the wrapped callable.  If an invocation is
stored (pending or settled), the same future is returned and the factory is
not called; otherwise the factory runs, its fresh future is stored and
returned. -/
def singCall (s : SingState) : Nat × SingState :=
  match s.current with
  | some fid => (fid, s)
  | none =>
    (s.nextId, ⟨some s.nextId, true, s.calls + 1, s.nextId + 1,
      s.resetWaiting, s.resetsDone⟩)

/-- Modelled from the spec: the stored invocation settles with outcome `o`.
If a `reset()` was awaiting the settlement, it now swallows the outcome,
clears the stored future and resolves. -/
def singSettle {ε : Type} (o : Outcome ε) (s : SingState) : SingState :=
  if s.resetWaiting then
    ⟨none, false, s.calls, s.nextId, false, s.resetsDone + 1⟩
  else
    ⟨s.current, false, s.calls, s.nextId, s.resetWaiting, s.resetsDone⟩

/-- Modelled from the spec: `reset()`.  With no stored invocation it resolves
immediately; with a settled stored invocation it clears it and resolves; with
a pending one it defers (awaits the settlement) and resolves at settlement
time via `singSettle`. -/
def singReset (s : SingState) : SingState :=
  match s.current with
  | none => ⟨none, s.pending, s.calls, s.nextId, s.resetWaiting, s.resetsDone + 1⟩
  | some _ =>
    if s.pending then
      ⟨s.current, s.pending, s.calls, s.nextId, true, s.resetsDone⟩
    else
      ⟨none, s.pending, s.calls, s.nextId, s.resetWaiting, s.resetsDone + 1⟩

/-- C3: while an invocation is stored (pending or settled, not yet reset),
every call returns the identical future and never re-invokes the factory; in
particular three synchronous calls from a fresh state invoke the factory
exactly once and all three return the same future identity. -/
theorem c3_singleton_reuse (s : SingState) (h : s.current = none) :
    (∀ (t : SingState) (fid : Nat), t.current = some fid →
      singCall t = (fid, t)) ∧
    (singCall s).1 = (singCall (singCall s).2).1 ∧
    (singCall (singCall s).2).1 = (singCall (singCall (singCall s).2).2).1 ∧
    (singCall (singCall (singCall s).2).2).2.calls = s.calls + 1 := by
  refine ⟨fun t fid ht => by simp [singCall, ht], ?_, ?_, ?_⟩ <;>
    simp [singCall, h]

/-- C3 witness: three synchronous calls on a fresh singleton. -/
theorem c3_singleton_reuse_witness :
    singInit.current = none ∧
    (singCall singInit).1 = (singCall (singCall singInit).2).1 ∧
    (singCall (singCall singInit).2).1 =
      (singCall (singCall (singCall singInit).2).2).1 ∧
    (singCall (singCall (singCall singInit).2).2).2.calls = singInit.calls + 1 :=
  ⟨rfl, (c3_singleton_reuse singInit rfl).2.1, (c3_singleton_reuse singInit rfl).2.2.1,
    (c3_singleton_reuse singInit rfl).2.2.2⟩

/-- C6: `reset()` resolves immediately when no invocation is stored; when a
settled one is stored it clears it and resolves; when a pending one is stored
it resolves only at that invocation's settlement, swallowing the outcome
(success and failure produce identical states) and clearing the stored future;
and after a reset has resolved, the next call invokes the factory again — in
the concrete run below the factory call count goes from 1 to 2. -/
theorem c6_singleton_reset (s : SingState) (fid : Nat)
    (hc : s.current = some fid) (hp : s.pending = true) :
    (∀ t : SingState, t.current = none →
      singReset t = ⟨none, t.pending, t.calls, t.nextId, t.resetWaiting,
        t.resetsDone + 1⟩) ∧
    (∀ (t : SingState) (g : Nat), t.current = some g → t.pending = false →
      singReset t = ⟨none, t.pending, t.calls, t.nextId, t.resetWaiting,
        t.resetsDone + 1⟩) ∧
    (singReset s).resetsDone = s.resetsDone ∧
    (singReset s).resetWaiting = true ∧
    (∀ o : Outcome Unit, (singSettle o (singReset s)).current = none ∧
      (singSettle o (singReset s)).resetsDone = s.resetsDone + 1) ∧
    (∀ (o1 o2 : Outcome Unit) (t : SingState), singSettle o1 t = singSettle o2 t) ∧
    (∀ t : SingState, t.current = none → (singCall t).2.calls = t.calls + 1) ∧
    (singCall (singSettle (Outcome.ok : Outcome Unit) (singReset (singCall singInit).2))).2.calls = 2 := by
  refine ⟨fun t ht => by simp [singReset, ht],
    fun t g ht hpf => by simp [singReset, ht, hpf], ?_, ?_, ?_,
    fun o1 o2 t => rfl, fun t ht => by simp [singCall, ht], by rfl⟩ <;>
    simp [singReset, singSettle, hc, hp]

/-- C6 witness: the reset lifecycle at the concrete one-call state. -/
theorem c6_singleton_reset_witness :
    (singCall singInit).2.current = some 0 ∧ (singCall singInit).2.pending = true ∧
    (singReset (singCall singInit).2).resetWaiting = true ∧
    (singCall (singSettle (Outcome.ok : Outcome Unit) (singReset (singCall singInit).2))).2.calls = 2 :=
  ⟨rfl, rfl, (c6_singleton_reset (singCall singInit).2 0 rfl rfl).2.2.2.1,
    (c6_singleton_reset (singCall singInit).2 0 rfl rfl).2.2.2.2.2.2.2⟩

/-! ### TaskLock (`createPromiseLock`) -/

/-- Modelled from the spec: state of `createPromiseLock`, which is missing
from `src/` (only `docs/promise.md` describes it).  `pending` lists the
identities of run-submitted futures not yet settled, `nextId` generates task
identities, `waiting` lists unresolved `wait()` futures, `resolved` the
resolved ones, and `nextWid` generates waiter identities. -/
structure LockState where
  pending : List Nat
  nextId : Nat
  waiting : List Nat
  resolved : List Nat
  nextWid : Nat
  deriving DecidableEq

/-- The freshly created lock. -/
def lockInit : LockState := ⟨[], 0, [], [], 0⟩

/-- Modelled from the spec: the lock's events.  `runTask` submits (and
immediately starts) a task; `finishTask i` is task `i`'s settlement;
`waitCall` calls `wait()`. -/
inductive LockEv where
  | runTask : LockEv
  | finishTask : Nat → LockEv
  | waitCall : LockEv
  deriving DecidableEq

/-- Modelled from the spec: one lock transition.  `run` appends the started
task to the pending set.  A settlement removes its task from the pending set
and, if the set became empty, resolves every outstanding `wait()`.  `wait()`
resolves immediately when the pending set is empty, otherwise its future joins
the outstanding waiters. -/
def lstep : LockEv → LockState → LockState
  | LockEv.runTask, s =>
    ⟨s.pending ++ [s.nextId], s.nextId + 1, s.waiting, s.resolved, s.nextWid⟩
  | LockEv.finishTask i, s =>
    let p := s.pending.erase i
    if p.isEmpty then ⟨p, s.nextId, [], s.resolved ++ s.waiting, s.nextWid⟩
    else ⟨p, s.nextId, s.waiting, s.resolved, s.nextWid⟩
  | LockEv.waitCall, s =>
    if s.pending.isEmpty then
      ⟨s.pending, s.nextId, s.waiting, s.resolved ++ [s.nextWid], s.nextWid + 1⟩
    else ⟨s.pending, s.nextId, s.waiting ++ [s.nextWid], s.resolved, s.nextWid + 1⟩

/-- The straggler scenario: task A (200ms) and task B (100ms) are submitted,
`wait()` is called, then B settles first. -/
def lockAfterB : LockState :=
  lstep (LockEv.finishTask 1) (lstep LockEv.waitCall
    (lstep LockEv.runTask (lstep LockEv.runTask lockInit)))

/-- The scenario's final state: A settles last. -/
def lockAfterA : LockState := lstep (LockEv.finishTask 0) lockAfterB

/-- C4: a `wait()` future settles only at an instant where the pending set is
empty — no transition resolves a waiter while submitted work (including work
submitted after `wait()` was called) is still pending.  In the concrete
scenario, after the faster task B settles the `wait()` future is still
unresolved (A is pending), and it resolves exactly when A settles. -/
theorem c4_wait_settles_when_empty (e : LockEv) (s : LockState)
    (h : (lstep e s).resolved ≠ s.resolved) :
    (lstep e s).pending = [] ∧
    (lockAfterB.resolved = [] ∧ lockAfterB.pending = [0] ∧
      lockAfterA.pending = [] ∧ lockAfterA.resolved = [0]) := by
  refine ⟨?_, by decide⟩
  cases e with
  | runTask => simp [lstep] at h
  | finishTask i =>
    by_cases hp : (s.pending.erase i).isEmpty
    · simpa [lstep, hp] using List.isEmpty_iff.mp hp
    · simp [lstep, hp] at h
  | waitCall =>
    by_cases hp : s.pending.isEmpty
    · simpa [lstep, hp] using List.isEmpty_iff.mp hp
    · simp [lstep, hp] at h

/-- C4 witness: the settlement of task A resolves the waiter, at an instant
with an empty pending set. -/
theorem c4_wait_settles_when_empty_witness :
    (lstep (LockEv.finishTask 0) lockAfterB).resolved ≠ lockAfterB.resolved ∧
    (lstep (LockEv.finishTask 0) lockAfterB).pending = [] :=
  ⟨by decide, (c4_wait_settles_when_empty (LockEv.finishTask 0) lockAfterB (by decide)).1⟩

/-! ### ControlledFuture (`createControlledPromise`) -/

/-- Modelled from the spec: state of `createControlledPromise`, which is
missing from `src/` (only `docs/promise.md` describes it): `none` while
pending, `some (Except.ok v)` once fulfilled, `some (Except.error e)` once
rejected. -/
structure CtrlState (α ε : Type) where
  result : Option (Except ε α)

/-- The freshly created controlled future: pending. -/
def ctrlInit (α ε : Type) : CtrlState α ε := ⟨none⟩

/-- Modelled from the spec: the externally callable `resolve`.  Only the first
completion takes effect; on an already completed future it is a silent no-op
(it returns normally, raising no error). -/
def ctrlResolve {α ε : Type} (v : α) (s : CtrlState α ε) : CtrlState α ε :=
  match s.result with
  | none => ⟨some (Except.ok v)⟩
  | some _ => s

/-- Modelled from the spec: the externally callable `reject`, same
first-completion-wins policy. -/
def ctrlReject {α ε : Type} (e : ε) (s : CtrlState α ε) : CtrlState α ε :=
  match s.result with
  | none => ⟨some (Except.error e)⟩
  | some _ => s

/-- C5: once a controlled future has completed (fulfilled or rejected), every
further `resolve` or `reject` is a silent no-op — the state is returned
unchanged, no error is raised.  In particular `resolve 'a'` then `resolve 'b'`
leaves the future fulfilled with `'a'` only. -/
theorem c5_first_completion_wins {α ε : Type} (s : CtrlState α ε)
    (r : Except ε α) (h : s.result = some r) (v : α) (e : ε) :
    (ctrlResolve v s = s ∧ ctrlReject e s = s) ∧
    (∀ a b : α,
      (ctrlResolve b (ctrlResolve a (ctrlInit α ε))).result = some (Except.ok a) ∧
      (ctrlReject e (ctrlResolve a (ctrlInit α ε))).result = some (Except.ok a)) := by
  refine ⟨⟨by simp [ctrlResolve, h], by simp [ctrlReject, h]⟩, ?_⟩
  intro a b
  simp [ctrlResolve, ctrlReject, ctrlInit]

/-- C5 witness: `resolve 0` then `resolve 1` on a fresh future leaves it
fulfilled with `0`. -/
theorem c5_first_completion_wins_witness :
    (ctrlResolve (1 : Nat) (ctrlResolve 0 (ctrlInit Nat Unit))).result =
      some (Except.ok 0) :=
  ((c5_first_completion_wins (ctrlResolve 0 (ctrlInit Nat Unit)) (Except.ok 0)
    rfl 0 ()).2 0 1).1

/-! ### Array helpers: `toArray` -/

/-- Modelled from the spec: the `Arrayable<T>` input type of `toArray` from
`docs/array.md` (the implementation is absent from `src/`): a JavaScript value
that is `null`, `undefined`, a single item, or an array. -/
inductive Arrayable (α : Type) where
  | nullV : Arrayable α
  | undef : Arrayable α
  | single : α → Arrayable α
  | arr : List α → Arrayable α

/-- Modelled from the spec: `toArray` — nullish inputs become `[]`, a
non-array becomes a one-element array, an array is returned as-is. -/
def toArray {α : Type} : Arrayable α → List α
  | Arrayable.nullV => []
  | Arrayable.undef => []
  | Arrayable.single a => [a]
  | Arrayable.arr l => l

/-- C8: `toArray` maps both nullish inputs to the empty array, wraps any
non-array value into a singleton, returns array inputs unchanged, and — being
a total function over its whole input type — never throws at the public
interface. -/
theorem c8_toArray_total (α : Type) (a : α) (l : List α) :
    toArray (Arrayable.nullV : Arrayable α) = [] ∧
    toArray (Arrayable.undef : Arrayable α) = [] ∧
    toArray (Arrayable.single a) = [a] ∧
    toArray (Arrayable.arr l) = l :=
  ⟨rfl, rfl, rfl, rfl⟩

/-! ### String helpers: `ensurePrefix` / `ensureSuffix` -/

/-- Modelled from the spec: `ensurePrefix` from `docs/string.md` (the
implementation is absent from `src/`): prepend the required lead-in unless the
string already starts with it.  Strings are embedded as character lists. -/
def ensurePrefix (pre s : List Char) : List Char :=
  if pre <+: s then s else pre ++ s

/-- Modelled from the spec: `ensureSuffix`, symmetric at the end of the
string. -/
def ensureSuffix (suf s : List Char) : List Char :=
  if suf <:+ s then s else s ++ suf

/-- C9: the result of `ensurePrefix` always starts with the required lead-in,
so a second application returns its argument unchanged (idempotence); and
symmetrically `ensureSuffix`'s result always ends with the required tail, and
a second application is the identity. -/
theorem c9_ensure_idempotent (pre s suf t : List Char) :
    pre <+: ensurePrefix pre s ∧
    ensurePrefix pre (ensurePrefix pre s) = ensurePrefix pre s ∧
    suf <:+ ensureSuffix suf t ∧
    ensureSuffix suf (ensureSuffix suf t) = ensureSuffix suf t := by
  have hpre : pre <+: ensurePrefix pre s := by
    unfold ensurePrefix
    by_cases h : pre <+: s
    · rw [if_pos h]; exact h
    · rw [if_neg h]; exact ⟨s, rfl⟩
  have hsuf : suf <:+ ensureSuffix suf t := by
    unfold ensureSuffix
    by_cases h : suf <:+ t
    · rw [if_pos h]; exact h
    · rw [if_neg h]; exact ⟨t, rfl⟩
  refine ⟨hpre, ?_, hsuf, ?_⟩
  · unfold ensurePrefix
    rw [if_pos]
    exact hpre
  · unfold ensureSuffix
    rw [if_pos]
    exact hsuf

/-! ### Deep equality: `isDeepEqual` -/

/-- Modelled from the spec: the JavaScript values `isDeepEqual` from
`docs/equal.md` compares (the implementation is absent from `src/`):
primitives of distinct types are distinct constructors, arrays are ordered
lists, objects are key/value field lists. -/
inductive JVal where
  | nullV : JVal
  | undef : JVal
  | boolV : Bool → JVal
  | numV : Int → JVal
  | strV : List Char → JVal
  | arrV : List JVal → JVal
  | objV : List (List Char × JVal) → JVal

/-- Own-property lookup by key in an object's field list. -/
def lookupField (k : List Char) : List (List Char × JVal) → Option JVal
  | [] => none
  | (k2, v) :: rest => if k = k2 then some v else lookupField k rest

mutual

/-- Modelled from the spec: deep equality.  Primitives compare by type and
value; arrays element-wise in order; objects have equally many keys and every
field of the left object must be present in the right one (by key, in any
position) with a deeply equal value. -/
def isDeepEqual : JVal → JVal → Bool
  | JVal.nullV, JVal.nullV => true
  | JVal.undef, JVal.undef => true
  | JVal.boolV a, JVal.boolV b => a == b
  | JVal.numV a, JVal.numV b => a == b
  | JVal.strV a, JVal.strV b => a == b
  | JVal.arrV a, JVal.arrV b => deepEqList a b
  | JVal.objV a, JVal.objV b => a.length == b.length && deepEqFields a b
  | _, _ => false
termination_by a _ => sizeOf a

/-- Element-wise deep equality of two arrays. -/
def deepEqList : List JVal → List JVal → Bool
  | [], [] => true
  | x :: xs, y :: ys => isDeepEqual x y && deepEqList xs ys
  | _, _ => false
termination_by l _ => sizeOf l

/-- Whether a field's value deeply equals the (possibly missing) looked-up
counterpart. -/
def fieldMatches : JVal → Option JVal → Bool
  | v, some w => isDeepEqual v w
  | _, none => false
termination_by v _ => sizeOf v + 1

/-- Every field of the first object is matched in the second. -/
def deepEqFields : List (List Char × JVal) → List (List Char × JVal) → Bool
  | [], _ => true
  | (k, v) :: rest, b => fieldMatches v (lookupField k b) && deepEqFields rest b
termination_by l _ => sizeOf l

end

/-- Well-formedness of a JavaScript object tree: object keys are distinct at
every level (as they necessarily are for real JavaScript objects). -/
def wfKeys : List (List Char × JVal) → Bool
  | [] => true
  | (k, _) :: rest => (lookupField k rest).isNone && wfKeys rest

mutual

/-- A value all of whose nested objects have distinct keys. -/
def wf : JVal → Bool
  | JVal.arrV l => wfList l
  | JVal.objV fs => wfKeys fs && wfFields fs
  | _ => true
termination_by v => sizeOf v

/-- All members of a list are well-formed. -/
def wfList : List JVal → Bool
  | [] => true
  | x :: xs => wf x && wfList xs
termination_by l => sizeOf l

/-- All field values are well-formed. -/
def wfFields : List (List Char × JVal) → Bool
  | [] => true
  | (_, v) :: rest => wf v && wfFields rest
termination_by l => sizeOf l

end

theorem beqComm {γ : Type} [BEq γ] [LawfulBEq γ] (x y : γ) : (x == y) = (y == x) := by
  rw [Bool.eq_iff_iff]
  simp only [beq_iff_eq]
  exact eq_comm

theorem lookupField_ne_none_of_mem :
    ∀ (l : List (List Char × JVal)) (p : List Char × JVal), p ∈ l →
      lookupField p.1 l ≠ none
  | [], p, hp => by simp at hp
  | (k2, v2) :: rest, p, hp => by
    rcases List.mem_cons.mp hp with rfl | hp'
    · simp [lookupField]
    · unfold lookupField
      by_cases hk : p.1 = k2
      · rw [if_pos hk]; simp
      · rw [if_neg hk]; exact lookupField_ne_none_of_mem rest p hp'

theorem lookupField_mem :
    ∀ (l : List (List Char × JVal)) (k : List Char) (v : JVal),
      lookupField k l = some v → (k, v) ∈ l
  | [], k, v, h => by simp [lookupField] at h
  | (k2, v2) :: rest, k, v, h => by
    unfold lookupField at h
    by_cases hk : k = k2
    · rw [if_pos hk] at h
      cases h
      subst hk
      exact List.mem_cons_self _ _
    · rw [if_neg hk] at h
      exact List.mem_cons_of_mem _ (lookupField_mem rest k v h)

theorem mem_lookupField :
    ∀ (l : List (List Char × JVal)), wfKeys l = true →
      ∀ (k : List Char) (v : JVal), (k, v) ∈ l → lookupField k l = some v
  | [], _, k, v, h => by simp at h
  | (k2, v2) :: rest, hw, k, v, h => by
    simp only [wfKeys, Bool.and_eq_true] at hw
    obtain ⟨h1, h2⟩ := hw
    rcases List.mem_cons.mp h with heq | h'
    · obtain ⟨hk, hv⟩ : k = k2 ∧ v = v2 := by simpa using heq
      subst hk; subst hv
      simp [lookupField]
    · by_cases hk : k = k2
      · exfalso
        apply lookupField_ne_none_of_mem rest (k, v) h'
        rw [hk]
        exact Option.isNone_iff_eq_none.mp h1
      · unfold lookupField
        rw [if_neg hk]
        exact mem_lookupField rest h2 k v h'

theorem wfKeys_nodup : ∀ (l : List (List Char × JVal)), wfKeys l = true →
    (l.map Prod.fst).Nodup
  | [], _ => by simp
  | (k, v) :: rest, h => by
    simp only [wfKeys, Bool.and_eq_true] at h
    obtain ⟨h1, h2⟩ := h
    simp only [List.map_cons, List.nodup_cons]
    refine ⟨?_, wfKeys_nodup rest h2⟩
    intro hmem
    obtain ⟨p, hp, hpk⟩ := List.mem_map.mp hmem
    apply lookupField_ne_none_of_mem rest p hp
    rw [hpk]
    exact Option.isNone_iff_eq_none.mp h1

theorem mem_fst_lookupField_ne_none {l : List (List Char × JVal)} {k : List Char}
    (h : k ∈ l.map Prod.fst) : lookupField k l ≠ none := by
  obtain ⟨p, hp, hpk⟩ := List.mem_map.mp h
  exact hpk ▸ lookupField_ne_none_of_mem l p hp

theorem deepEqFields_iff :
    ∀ (a b : List (List Char × JVal)),
      deepEqFields a b = true ↔
        ∀ p ∈ a, fieldMatches p.2 (lookupField p.1 b) = true
  | [], b => by simp [deepEqFields]
  | (k, v) :: rest, b => by
    rw [deepEqFields, Bool.and_eq_true, deepEqFields_iff rest b]
    constructor
    · rintro ⟨h1, h2⟩ p hp
      rcases List.mem_cons.mp hp with rfl | hp'
      · exact h1
      · exact h2 p hp'
    · intro h
      exact ⟨h (k, v) (List.mem_cons_self _ _),
        fun p hp => h p (List.mem_cons_of_mem _ hp)⟩

theorem wfFields_mem : ∀ (l : List (List Char × JVal)), wfFields l = true →
    ∀ p ∈ l, wf p.2 = true
  | [], _, p, hp => by simp at hp
  | (k, v) :: rest, h, p, hp => by
    rw [wfFields, Bool.and_eq_true] at h
    rcases List.mem_cons.mp hp with rfl | hp'
    · exact h.1
    · exact wfFields_mem rest h.2 p hp'

theorem wfList_mem : ∀ (l : List JVal), wfList l = true → ∀ x ∈ l, wf x = true
  | [], _, x, hx => by simp at hx
  | y :: rest, h, x, hx => by
    rw [wfList, Bool.and_eq_true] at h
    rcases List.mem_cons.mp hx with rfl | hx'
    · exact h.1
    · exact wfList_mem rest h.2 x hx'

theorem sizeOf_snd_lt_of_mem {p : List Char × JVal} {A : List (List Char × JVal)}
    (h : p ∈ A) : sizeOf p.2 < sizeOf A := by
  have h1 := List.sizeOf_lt_sizeOf_of_mem h
  have h2 : sizeOf p.2 < sizeOf p := by
    cases p with
    | mk a b => simp only [Prod.mk.sizeOf_spec]; omega
  omega

/-- One direction of the object case: a length-equal, key-distinct pair of
field lists matching left-into-right also matches right-into-left. -/
theorem deepEqFields_flip (A B : List (List Char × JVal))
    (Hsym : ∀ p ∈ A, ∀ q ∈ B, isDeepEqual p.2 q.2 = isDeepEqual q.2 p.2)
    (hkA : wfKeys A = true) (hkB : wfKeys B = true)
    (hlen : A.length = B.length)
    (hAB : ∀ p ∈ A, fieldMatches p.2 (lookupField p.1 B) = true) :
    ∀ q ∈ B, fieldMatches q.2 (lookupField q.1 A) = true := by
  have hsub : A.map Prod.fst ⊆ B.map Prod.fst := by
    intro k hk
    obtain ⟨p, hp, hpk⟩ := List.mem_map.mp hk
    have hm := hAB p hp
    cases hlk : lookupField p.1 B with
    | none => rw [hlk] at hm; simp [fieldMatches] at hm
    | some w =>
      have : (p.1, w) ∈ B := lookupField_mem B p.1 w hlk
      exact hpk ▸ List.mem_map.mpr ⟨(p.1, w), this, rfl⟩
  have hperm : List.Perm (A.map Prod.fst) (B.map Prod.fst) :=
    List.Subperm.perm_of_length_le ((wfKeys_nodup A hkA).subperm hsub)
      (by simp [hlen])
  have hsub2 : B.map Prod.fst ⊆ A.map Prod.fst := hperm.symm.subset
  intro q hq
  have hkq : q.1 ∈ A.map Prod.fst :=
    hsub2 (List.mem_map.mpr ⟨q, hq, rfl⟩)
  obtain ⟨p, hp, hpk⟩ := List.mem_map.mp hkq
  have hlkA : lookupField q.1 A = some p.2 := by
    rw [← hpk]
    exact mem_lookupField A hkA p.1 p.2 (by
      have : p = (p.1, p.2) := rfl
      rw [← this]; exact hp)
  have hm := hAB p hp
  cases hlk : lookupField p.1 B with
  | none => rw [hlk] at hm; simp [fieldMatches] at hm
  | some w =>
    rw [hlk] at hm
    have hwq : w = q.2 := by
      have hqB : (q.1, q.2) ∈ B := by
        have : q = (q.1, q.2) := rfl
        rw [← this]; exact hq
      have hlkB : lookupField q.1 B = some q.2 := mem_lookupField B hkB q.1 q.2 hqB
      rw [hpk] at hlk
      rw [hlk] at hlkB
      exact (Option.some.injEq _ _).mp hlkB
    rw [hlkA]
    simp only [fieldMatches] at hm ⊢
    rw [← Hsym p hp q hq, ← hwq]
    exact hm

theorem deepEqList_symm_of :
    ∀ (xs ys : List JVal),
      (∀ x ∈ xs, ∀ y ∈ ys, isDeepEqual x y = isDeepEqual y x) →
      deepEqList xs ys = deepEqList ys xs
  | [], [], _ => rfl
  | [], y :: ys, _ => by simp [deepEqList]
  | x :: xs, [], _ => by simp [deepEqList]
  | x :: xs, y :: ys, H => by
    rw [deepEqList, deepEqList,
      H x (List.mem_cons_self _ _) y (List.mem_cons_self _ _),
      deepEqList_symm_of xs ys
        (fun a ha b hb => H a (List.mem_cons_of_mem _ ha) b (List.mem_cons_of_mem _ hb))]

theorem sizeOf_jval_pos (a : JVal) : 0 < sizeOf a := by
  cases a <;> simp_arith

theorem isDeepEqual_symm_aux :
    ∀ (n : Nat) (a b : JVal), sizeOf a + sizeOf b ≤ n →
      wf a = true → wf b = true → isDeepEqual a b = isDeepEqual b a := by
  intro n
  induction n with
  | zero =>
    intro a b hsz _ _
    have h1 := sizeOf_jval_pos a
    have h2 := sizeOf_jval_pos b
    omega
  | succ n ih =>
    intro a b hsz ha hb
    cases a with
    | nullV => cases b <;> simp [isDeepEqual]
    | undef => cases b <;> simp [isDeepEqual]
    | boolV x =>
      cases b
      case boolV y => simp only [isDeepEqual]; exact beqComm x y
      all_goals simp [isDeepEqual]
    | numV x =>
      cases b
      case numV y => simp only [isDeepEqual]; exact beqComm x y
      all_goals simp [isDeepEqual]
    | strV x =>
      cases b
      case strV y => simp only [isDeepEqual]; exact beqComm x y
      all_goals simp [isDeepEqual]
    | arrV xs =>
      cases b
      case arrV ys =>
        simp only [isDeepEqual]
        simp only [JVal.arrV.sizeOf_spec] at hsz
        simp only [wf] at ha hb
        apply deepEqList_symm_of
        intro x hx y hy
        have hsx := List.sizeOf_lt_sizeOf_of_mem hx
        have hsy := List.sizeOf_lt_sizeOf_of_mem hy
        exact ih x y (by omega) (wfList_mem xs ha x hx) (wfList_mem ys hb y hy)
      all_goals simp [isDeepEqual]
    | objV A =>
      cases b
      case objV B =>
        simp only [isDeepEqual]
        simp only [JVal.objV.sizeOf_spec] at hsz
        simp only [wf, Bool.and_eq_true] at ha hb
        have Hsym : ∀ p ∈ A, ∀ q ∈ B, isDeepEqual p.2 q.2 = isDeepEqual q.2 p.2 := by
          intro p hp q hq
          have hsp := sizeOf_snd_lt_of_mem hp
          have hsq := sizeOf_snd_lt_of_mem hq
          exact ih p.2 q.2 (by omega) (wfFields_mem A ha.2 p hp)
            (wfFields_mem B hb.2 q hq)
        rw [Bool.eq_iff_iff]
        simp only [Bool.and_eq_true, beq_iff_eq, deepEqFields_iff]
        constructor
        · rintro ⟨hlen, hAB⟩
          exact ⟨hlen.symm, deepEqFields_flip A B Hsym ha.1 hb.1 hlen hAB⟩
        · rintro ⟨hlen, hBA⟩
          exact ⟨hlen.symm, deepEqFields_flip B A
            (fun q hq p hp => (Hsym p hp q hq).symm) hb.1 ha.1 hlen hBA⟩
      all_goals simp [isDeepEqual]

/-- The documented key-order example: `{ a: 1, b: 2 }`. -/
def objAB : JVal := JVal.objV [(['a'], JVal.numV 1), (['b'], JVal.numV 2)]

/-- The documented key-order example with the insertion order flipped:
`{ b: 2, a: 1 }`. -/
def objBA : JVal := JVal.objV [(['b'], JVal.numV 2), (['a'], JVal.numV 1)]

/-- C10: on well-formed values (object keys distinct at every level, as they
necessarily are for JavaScript objects) `isDeepEqual` is symmetric; two
objects with the same key/value pairs compare equal regardless of insertion
order; and distinct primitive types never compare equal (`null` vs
`undefined`, `0` vs `false`, `42` vs `'42'`). -/
theorem c10_isDeepEqual_symm (a b : JVal) (ha : wf a = true) (hb : wf b = true) :
    isDeepEqual a b = isDeepEqual b a ∧
    isDeepEqual objAB objBA = true ∧
    isDeepEqual JVal.nullV JVal.undef = false ∧
    isDeepEqual (JVal.numV 0) (JVal.boolV false) = false ∧
    isDeepEqual (JVal.numV 42) (JVal.strV ['4', '2']) = false := by
  refine ⟨isDeepEqual_symm_aux (sizeOf a + sizeOf b) a b (Nat.le_refl _) ha hb,
    ?_, ?_, ?_, ?_⟩ <;>
    simp [objAB, objBA, isDeepEqual, deepEqFields, fieldMatches, lookupField]

/-- C10 witness: symmetry applied at the two documented key-order objects. -/
theorem c10_isDeepEqual_symm_witness :
    wf objAB = true ∧ wf objBA = true ∧
    isDeepEqual objAB objBA = isDeepEqual objBA objAB :=
  ⟨by simp [objAB, wf, wfKeys, wfFields, lookupField],
    by simp [objBA, wf, wfKeys, wfFields, lookupField],
    (c10_isDeepEqual_symm objAB objBA
      (by simp [objAB, wf, wfKeys, wfFields, lookupField])
      (by simp [objBA, wf, wfKeys, wfFields, lookupField])).1⟩

end UtilsSpec
